import Mathlib

/-!
Verification of the task-local garbage-collected box `Gc<T>`
(src/src/libstd/gc.rs).

The Rust type is a thin wrapper over a managed pointer `@T`:

  pub struct Gc<T> { ptr: @T, marker: marker::NoSend }
  pub fn new(value: T) -> Gc<T> { Gc { ptr: @value, marker: marker::NoSend } }
  pub fn borrow<'r>(&'r self) -> &'r T { &*self.ptr }
  pub fn ptr_eq(&self, other: &Gc<T>) -> bool { managed::ptr_eq(self.ptr, other.ptr) }
  impl Clone: fn clone(&self) -> Gc<T> { Gc { ptr: self.ptr, marker: marker::NoSend } }

We embed the managed heap explicitly: a heap is a list of cells indexed by
address, each cell holding the stored value and its strong reference count,
or being in the terminal `freed` state.  A handle (`Gc`) is an address into
that heap.  A `World` pairs the heap with the multiset of live handles, so
that the reference-count invariant can be stated and proved.
-/

namespace GcModel

/-- A live heap cell: the shared value together with its strong count.
The count itself is maintained by the `@T` runtime (not in gc.rs);
modelled from the spec: `strong_count` starts at 1, clone increments it,
each drop decrements it. -/
structure Cell (T : Type) where
  value : T
  strong_count : Nat
deriving Repr

/-- The state of one heap slot: live with a cell, or freed (terminal). -/
inductive CellState (T : Type) where
  | live (c : Cell T)
  | freed
deriving Repr

/-- `Gc<T>`: a handle, i.e. the address of its managed cell.  The Rust
struct also carries a zero-sized `marker::NoSend` field which has no
runtime content, so it does not appear in the model. -/
structure Gc (T : Type) where
  ptr : Nat
deriving Repr, DecidableEq

/-- The managed heap together with the multiset (as a list) of the
addresses of live handles currently held by client code. -/
structure World (T : Type) where
  heap : List (CellState T)
  handles : List Nat

/-- The empty world: no cells, no handles. -/
def World.empty (T : Type) : World T := ⟨[], []⟩

/-- Apply `f` to the cell state at address `a`, leaving the rest of the
heap unchanged. -/
def modifyAt {T : Type} (f : CellState T → CellState T) :
    Nat → List (CellState T) → List (CellState T)
  | _, [] => []
  | 0, c :: rest => f c :: rest
  | n + 1, c :: rest => c :: modifyAt f n rest

/-- `Gc::new`: allocate a fresh cell holding `value` with strong count 1
and hand back a handle to it.  The fresh address is the current heap
length. -/
def Gc.new {T : Type} (value : T) (w : World T) : Gc T × World T :=
  let g : Gc T := ⟨w.heap.length⟩
  (g, ⟨w.heap ++ [.live ⟨value, 1⟩], g.ptr :: w.handles⟩)

/-- `Gc::borrow`: read the value stored in the handle's cell.  Reading a
freed or dangling cell has no defined result, modelled as `none`. -/
def Gc.borrow {T : Type} (g : Gc T) (w : World T) : Option T :=
  match w.heap[g.ptr]? with
  | some (.live c) => some c.value
  | _ => none

/-- `Gc::ptr_eq`: `managed::ptr_eq` compares the two managed pointers for
identity, i.e. the two addresses. -/
def Gc.ptr_eq {T : Type} (a b : Gc T) : Bool :=
  a.ptr == b.ptr

/-- Increment the strong count of a live cell; a freed cell is untouched.
Modelled from the spec: copying a managed `@T` pointer bumps its
reference count in the runtime, which is not part of gc.rs. -/
def bump {T : Type} : CellState T → CellState T
  | .live c => .live ⟨c.value, c.strong_count + 1⟩
  | .freed => .freed

/-- `Clone for Gc`: copy the pointer only; the runtime increments the
cell's strong count, and the copy is recorded as a new live handle. -/
def Gc.clone {T : Type} (g : Gc T) (w : World T) : Gc T × World T :=
  (⟨g.ptr⟩, ⟨modifyAt bump g.ptr w.heap, g.ptr :: w.handles⟩)

/-- Decrement the strong count of a live cell, freeing it when the count
reaches zero; a freed cell is untouched.  Modelled from the spec: drop
decrements `strong_count`, and when the result is zero the cell is
deallocated (terminal `freed`). -/
def dec {T : Type} : CellState T → CellState T
  | .live c => if c.strong_count ≤ 1 then .freed else .live ⟨c.value, c.strong_count - 1⟩
  | .freed => .freed

/-- Drop of a `Gc` handle: the handle ceases to be live and the runtime
decrements its cell's strong count, freeing the cell when it reaches
zero.  Modelled from the spec (handle destruction is runtime behaviour,
not in gc.rs). -/
def Gc.drop {T : Type} (g : Gc T) (w : World T) : World T :=
  ⟨modifyAt dec g.ptr w.heap, w.handles.erase g.ptr⟩

/-- Well-formedness of one heap slot's contents relative to the live
handles: a live cell's strong count equals the number of live handles
aliasing it and is at least 1; a freed cell has no live handles. -/
def slotOK {T : Type} (handles : List Nat) (a : Nat) : Option (CellState T) → Prop
  | some (.live c) => c.strong_count = handles.count a ∧ 1 ≤ c.strong_count
  | some .freed => handles.count a = 0
  | none => True

def cellOK {T : Type} (w : World T) (a : Nat) : Prop :=
  slotOK w.handles a w.heap[a]?

/-- World invariant: every live handle points into the heap, and every
heap slot is well formed. -/
def WF {T : Type} (w : World T) : Prop :=
  (∀ a ∈ w.handles, a < w.heap.length) ∧ ∀ a, a < w.heap.length → cellOK w a

theorem length_modifyAt {T : Type} (f : CellState T → CellState T) (i : Nat)
    (l : List (CellState T)) : (modifyAt f i l).length = l.length := by
  induction l generalizing i with
  | nil => cases i <;> rfl
  | cons c rest ih => cases i with
    | zero => rfl
    | succ n => simpa [modifyAt] using ih n

theorem getElem?_modifyAt_self {T : Type} (f : CellState T → CellState T) (i : Nat)
    (l : List (CellState T)) : (modifyAt f i l)[i]? = (l[i]?).map f := by
  induction l generalizing i with
  | nil => cases i <;> simp [modifyAt]
  | cons c rest ih => cases i with
    | zero => simp [modifyAt]
    | succ n => simpa [modifyAt] using ih n

theorem getElem?_modifyAt_ne {T : Type} (f : CellState T → CellState T) {i j : Nat}
    (h : i ≠ j) (l : List (CellState T)) : (modifyAt f i l)[j]? = l[j]? := by
  induction l generalizing i j with
  | nil => cases i <;> simp [modifyAt]
  | cons c rest ih => cases i with
    | zero => cases j with
      | zero => exact absurd rfl h
      | succ m => simp [modifyAt]
    | succ n => cases j with
      | zero => simp [modifyAt]
      | succ m =>
        have h' : n ≠ m := fun he => h (by rw [he])
        simpa [modifyAt] using ih h'

theorem new_fst {T : Type} (v : T) (w : World T) :
    (Gc.new v w).1 = ⟨w.heap.length⟩ := rfl

theorem new_heap {T : Type} (v : T) (w : World T) :
    (Gc.new v w).2.heap = w.heap ++ [.live ⟨v, 1⟩] := rfl

theorem new_handles {T : Type} (v : T) (w : World T) :
    (Gc.new v w).2.handles = w.heap.length :: w.handles := rfl

theorem clone_fst {T : Type} (g : Gc T) (w : World T) :
    (Gc.clone g w).1 = ⟨g.ptr⟩ := rfl

theorem clone_heap {T : Type} (g : Gc T) (w : World T) :
    (Gc.clone g w).2.heap = modifyAt bump g.ptr w.heap := rfl

theorem clone_handles {T : Type} (g : Gc T) (w : World T) :
    (Gc.clone g w).2.handles = g.ptr :: w.handles := rfl

theorem drop_heap {T : Type} (g : Gc T) (w : World T) :
    (Gc.drop g w).heap = modifyAt dec g.ptr w.heap := rfl

theorem drop_handles {T : Type} (g : Gc T) (w : World T) :
    (Gc.drop g w).handles = w.handles.erase g.ptr := rfl

/-- Under the invariant, every live handle's cell is live, its strong
count is the number of handles aliasing it, and that count is at least 1. -/
theorem WF.live_of_mem {T : Type} {w : World T} (hw : WF w) {a : Nat}
    (ha : a ∈ w.handles) :
    ∃ c, w.heap[a]? = some (.live c) ∧
      c.strong_count = w.handles.count a ∧ 1 ≤ c.strong_count := by
  have hlt : a < w.heap.length := hw.1 a ha
  have hok := hw.2 a hlt
  have hcnt : 0 < w.handles.count a := List.count_pos_iff.mpr ha
  unfold cellOK at hok
  rcases hget : w.heap[a]? with _ | cs
  · exact absurd hget (by simp [List.getElem?_eq_getElem hlt])
  · cases cs with
    | live c =>
      rw [hget] at hok
      simp only [slotOK] at hok
      exact ⟨c, rfl, hok.1, hok.2⟩
    | freed =>
      rw [hget] at hok
      simp only [slotOK] at hok
      omega

/-- Borrowing after a clone reads the same value as before, for every
handle (the clone only bumps a strong count). -/
theorem borrow_clone {T : Type} (g h : Gc T) (w : World T) :
    Gc.borrow g (Gc.clone h w).2 = Gc.borrow g w := by
  unfold Gc.borrow
  rw [clone_heap]
  by_cases hp : h.ptr = g.ptr
  · rw [← hp, getElem?_modifyAt_self]
    rcases w.heap[h.ptr]? with _ | (c | _) <;> simp [bump]
  · rw [getElem?_modifyAt_ne bump hp]

/-- Borrow only depends on the handle's address. -/
theorem borrow_ptr {T : Type} (g g' : Gc T) (w : World T) (h : g.ptr = g'.ptr) :
    Gc.borrow g w = Gc.borrow g' w := by
  unfold Gc.borrow
  rw [h]

/-- C1: for every value `v` (and any prior heap state), borrowing the box
constructed from `v` reads back exactly `v`. -/
theorem C1_new_borrow_roundtrip {T : Type} (v : T) (w : World T) :
    Gc.borrow (Gc.new v w).1 (Gc.new v w).2 = some v := by
  unfold Gc.new Gc.borrow
  simp

/-- C4: `ptr_eq a b` is true iff `a` and `b` alias the same heap cell
(same address, not structural equality of values), and it is reflexive. -/
theorem C4_ptr_eq_iff_same_cell {T : Type} :
    (∀ a b : Gc T, Gc.ptr_eq a b = true ↔ a.ptr = b.ptr) ∧
    (∀ h : Gc T, Gc.ptr_eq h h = true) := by
  constructor
  · intro a b
    unfold Gc.ptr_eq
    exact beq_iff_eq
  · intro h
    unfold Gc.ptr_eq
    simp

/-- C5: the handle returned by cloning `h` aliases the same heap cell as
`h`. -/
theorem C5_clone_aliases {T : Type} (h : Gc T) (w : World T) :
    Gc.ptr_eq h (Gc.clone h w).1 = true := by
  unfold Gc.ptr_eq Gc.clone
  simp

/-- C6: two independently constructed boxes over the same value occupy
distinct cells: pointer equality is false despite equal contents. -/
theorem C6_new_new_distinct {T : Type} (v : T) (w : World T) :
    Gc.ptr_eq (Gc.new v w).1 (Gc.new v (Gc.new v w).2).1 = false := by
  unfold Gc.ptr_eq Gc.new
  simp

/-- C10: pointer equality is symmetric. -/
theorem C10_ptr_eq_symm {T : Type} (a b : Gc T) :
    Gc.ptr_eq a b = Gc.ptr_eq b a := by
  unfold Gc.ptr_eq
  by_cases h : a.ptr = b.ptr
  · rw [h]
  · simp [h, Ne.symm h]

/-- C7: cloning does not copy or touch the contained value and changes
nothing observable through any handle: every borrow reads the same value
after the clone as before, the clone reads the same value as the
original, and every cell other than the cloned one is untouched (only
the cloned cell's strong count changes, its value preserved). -/
theorem C7_clone_frame {T : Type} (h : Gc T) (w : World T) :
    (∀ g : Gc T, Gc.borrow g (Gc.clone h w).2 = Gc.borrow g w) ∧
    Gc.borrow (Gc.clone h w).1 (Gc.clone h w).2 = Gc.borrow h w ∧
    (∀ a, a ≠ h.ptr → (Gc.clone h w).2.heap[a]? = w.heap[a]?) ∧
    (∀ c, w.heap[h.ptr]? = some (.live c) →
      (Gc.clone h w).2.heap[h.ptr]? = some (.live ⟨c.value, c.strong_count + 1⟩)) := by
  refine ⟨fun g => borrow_clone g h w, ?_, ?_, ?_⟩
  · rw [borrow_clone]
    exact borrow_ptr _ h w rfl
  · intro a ha
    rw [clone_heap]
    exact getElem?_modifyAt_ne bump (Ne.symm ha) w.heap
  · intro c hc
    rw [clone_heap, getElem?_modifyAt_self, hc]
    rfl

theorem slotOK_of_count_eq {T : Type} {h1 h2 : List Nat} {a : Nat}
    (hc : h1.count a = h2.count a) (o : Option (CellState T)) :
    slotOK h1 a o → slotOK h2 a o := by
  intro h
  rcases o with _ | (c | _)
  · trivial
  · simp only [slotOK] at h ⊢
    exact ⟨h.1.trans hc, h.2⟩
  · simp only [slotOK] at h ⊢
    exact hc.symm.trans h

/-- Reading a live cell through `borrow` yields its stored value. -/
theorem borrow_eq {T : Type} {w : World T} {g : Gc T} {c : Cell T}
    (h : w.heap[g.ptr]? = some (.live c)) : Gc.borrow g w = some c.value := by
  unfold Gc.borrow
  rw [h]

/-- `Gc::new` preserves the world invariant. -/
theorem WF_new {T : Type} {w : World T} (hw : WF w) (v : T) : WF (Gc.new v w).2 := by
  have hnotmem : w.heap.length ∉ w.handles := fun hmem => by
    have := hw.1 _ hmem
    omega
  constructor
  · intro a ha
    rw [new_handles] at ha
    rw [new_heap, List.length_append, List.length_singleton]
    rcases List.mem_cons.mp ha with h | h
    · omega
    · have := hw.1 a h
      omega
  · intro a hlt
    rw [new_heap, List.length_append, List.length_singleton] at hlt
    unfold cellOK
    rw [new_handles, new_heap]
    by_cases hcase : a < w.heap.length
    · rw [List.getElem?_append_left hcase]
      have hne : a ≠ w.heap.length := by omega
      exact slotOK_of_count_eq (List.count_cons_of_ne hne w.handles).symm _ (hw.2 a hcase)
    · have ha : a = w.heap.length := by omega
      subst ha
      rw [List.getElem?_concat_length]
      simp only [slotOK]
      rw [List.count_cons_self, List.count_eq_zero.mpr hnotmem]
      exact ⟨rfl, le_refl 1⟩

/-- Cloning a live handle preserves the world invariant. -/
theorem WF_clone {T : Type} {w : World T} {g : Gc T} (hw : WF w)
    (hm : g.ptr ∈ w.handles) : WF (Gc.clone g w).2 := by
  obtain ⟨c, hget, hcount, hpos⟩ := hw.live_of_mem hm
  constructor
  · intro a ha
    rw [clone_handles] at ha
    rw [clone_heap, length_modifyAt]
    rcases List.mem_cons.mp ha with h | h
    · subst h
      exact hw.1 _ hm
    · exact hw.1 a h
  · intro a hlt
    rw [clone_heap, length_modifyAt] at hlt
    unfold cellOK
    rw [clone_handles, clone_heap]
    by_cases hcase : g.ptr = a
    · subst hcase
      rw [getElem?_modifyAt_self, hget]
      simp only [Option.map_some', bump, slotOK]
      rw [List.count_cons_self]
      omega
    · rw [getElem?_modifyAt_ne bump hcase]
      have hne : a ≠ g.ptr := fun he => hcase he.symm
      exact slotOK_of_count_eq (List.count_cons_of_ne hne w.handles).symm _ (hw.2 a hlt)

/-- Dropping a live handle preserves the world invariant. -/
theorem WF_drop {T : Type} {w : World T} {g : Gc T} (hw : WF w)
    (hm : g.ptr ∈ w.handles) : WF (Gc.drop g w) := by
  obtain ⟨c, hget, hcount, hpos⟩ := hw.live_of_mem hm
  constructor
  · intro a ha
    rw [drop_handles] at ha
    rw [drop_heap, length_modifyAt]
    exact hw.1 a (List.mem_of_mem_erase ha)
  · intro a hlt
    rw [drop_heap, length_modifyAt] at hlt
    unfold cellOK
    rw [drop_handles, drop_heap]
    by_cases hcase : g.ptr = a
    · subst hcase
      rw [getElem?_modifyAt_self, hget]
      simp only [Option.map_some', dec]
      by_cases hone : c.strong_count ≤ 1
      · rw [if_pos hone]
        simp only [slotOK]
        rw [List.count_erase_self]
        omega
      · rw [if_neg hone]
        simp only [slotOK]
        rw [List.count_erase_self]
        omega
    · rw [getElem?_modifyAt_ne dec hcase]
      have hne : a ≠ g.ptr := fun he => hcase he.symm
      exact slotOK_of_count_eq (List.count_erase_of_ne hne w.handles).symm _ (hw.2 a hlt)

/-- A fresh cell starts live with strong count 1. -/
theorem new_cell {T : Type} (v : T) (w : World T) :
    (Gc.new v w).2.heap[w.heap.length]? = some (.live ⟨v, 1⟩) := by
  rw [new_heap]
  exact List.getElem?_concat_length _ _

/-- Dropping a handle to a live cell decrements its count, freeing the
cell exactly when the count reaches zero. -/
theorem drop_cell {T : Type} (g : Gc T) (w : World T) (c : Cell T)
    (hget : w.heap[g.ptr]? = some (.live c)) :
    (Gc.drop g w).heap[g.ptr]? =
      some (if c.strong_count ≤ 1 then .freed
            else .live ⟨c.value, c.strong_count - 1⟩) := by
  rw [drop_heap, getElem?_modifyAt_self, hget]
  rfl

/-- No operation revives a freed cell. -/
theorem freed_terminal {T : Type} (w : World T) (a : Nat)
    (hf : w.heap[a]? = some .freed) :
    (∀ v : T, (Gc.new v w).2.heap[a]? = some .freed) ∧
    (∀ g : Gc T, (Gc.clone g w).2.heap[a]? = some .freed) ∧
    (∀ g : Gc T, (Gc.drop g w).heap[a]? = some .freed) := by
  have hlt : a < w.heap.length := by
    by_contra hge
    rw [List.getElem?_eq_none (by omega)] at hf
    exact Option.noConfusion hf
  refine ⟨?_, ?_, ?_⟩
  · intro v
    rw [new_heap, List.getElem?_append_left hlt, hf]
  · intro g
    rw [clone_heap]
    by_cases hcase : g.ptr = a
    · subst hcase
      rw [getElem?_modifyAt_self, hf]
      rfl
    · rw [getElem?_modifyAt_ne bump hcase, hf]
  · intro g
    rw [drop_heap]
    by_cases hcase : g.ptr = a
    · subst hcase
      rw [getElem?_modifyAt_self, hf]
      rfl
    · rw [getElem?_modifyAt_ne dec hcase, hf]

/-- A concrete well-formed world: one live cell holding `5` with strong
count 1, referenced by one live handle at address 0. -/
def w1 : World Nat := ⟨[.live ⟨5, 1⟩], [0]⟩

theorem WF_w1 : WF w1 := by
  constructor
  · intro a ha
    simp only [w1] at ha ⊢
    simp at ha
    simp [ha]
  · intro a hlt
    simp only [w1] at hlt
    simp at hlt
    have ha : a = 0 := by omega
    subst ha
    simp [cellOK, w1, slotOK]

/-- C2: under the world invariant, every cell referenced by a live handle
is live with `strong_count ≥ 1`; construct starts a fresh cell at count
1 and preserves the invariant; cloning a live handle increments its
cell's count and preserves the invariant; a drop decrements the count,
freeing the cell exactly when the count reaches zero, and preserves the
invariant; and no operation leaves the terminal freed state. -/
theorem C2_refcount_state_machine {T : Type} (w : World T) (hw : WF w) :
    (∀ a ∈ w.handles, ∃ c, w.heap[a]? = some (.live c) ∧ 1 ≤ c.strong_count) ∧
    (∀ v : T, WF (Gc.new v w).2 ∧
      (Gc.new v w).2.heap[w.heap.length]? = some (.live ⟨v, 1⟩)) ∧
    (∀ g : Gc T, g.ptr ∈ w.handles → WF (Gc.clone g w).2 ∧
      ∀ c, w.heap[g.ptr]? = some (.live c) →
        (Gc.clone g w).2.heap[g.ptr]? = some (.live ⟨c.value, c.strong_count + 1⟩)) ∧
    (∀ g : Gc T, g.ptr ∈ w.handles → WF (Gc.drop g w) ∧
      ∀ c, w.heap[g.ptr]? = some (.live c) →
        (Gc.drop g w).heap[g.ptr]? =
          some (if c.strong_count ≤ 1 then .freed
                else .live ⟨c.value, c.strong_count - 1⟩)) ∧
    (∀ a : Nat, w.heap[a]? = some (@CellState.freed T) →
      (∀ v : T, (Gc.new v w).2.heap[a]? = some (@CellState.freed T)) ∧
      (∀ g : Gc T, (Gc.clone g w).2.heap[a]? = some (@CellState.freed T)) ∧
      (∀ g : Gc T, (Gc.drop g w).heap[a]? = some (@CellState.freed T))) := by
  refine ⟨?_, ?_, ?_, ?_, ?_⟩
  · intro a ha
    obtain ⟨c, hg, _, hp⟩ := hw.live_of_mem ha
    exact ⟨c, hg, hp⟩
  · intro v
    exact ⟨WF_new hw v, new_cell v w⟩
  · intro g hm
    refine ⟨WF_clone hw hm, fun c hc => ?_⟩
    rw [clone_heap, getElem?_modifyAt_self, hc]
    rfl
  · intro g hm
    exact ⟨WF_drop hw hm, fun c hc => drop_cell g w c hc⟩
  · intro a hf
    exact freed_terminal w a hf

theorem C2_refcount_state_machine_witness :
    ∃ c, w1.heap[0]? = some (.live c) ∧ 1 ≤ c.strong_count :=
  (C2_refcount_state_machine w1 WF_w1).1 0 (by simp [w1])

/-- C3: the stored value is never mutated through the type: borrow is a
pure read of the stored value, and new, clone and drop each leave the
value of every pre-existing live cell unchanged (the API offers no write
operation at all). -/
theorem C3_value_never_mutated {T : Type} (w : World T) (a : Nat) (c : Cell T)
    (hget : w.heap[a]? = some (.live c)) :
    Gc.borrow ⟨a⟩ w = some c.value ∧
    (∀ v : T, ∃ c', (Gc.new v w).2.heap[a]? = some (.live c') ∧ c'.value = c.value) ∧
    (∀ g : Gc T, ∃ c', (Gc.clone g w).2.heap[a]? = some (.live c') ∧ c'.value = c.value) ∧
    (∀ g : Gc T, ∀ c', (Gc.drop g w).heap[a]? = some (.live c') → c'.value = c.value) := by
  have hlt : a < w.heap.length := by
    by_contra hge
    rw [List.getElem?_eq_none (by omega)] at hget
    exact Option.noConfusion hget
  refine ⟨borrow_eq hget, ?_, ?_, ?_⟩
  · intro v
    refine ⟨c, ?_, rfl⟩
    rw [new_heap, List.getElem?_append_left hlt, hget]
  · intro g
    by_cases hcase : g.ptr = a
    · subst hcase
      refine ⟨⟨c.value, c.strong_count + 1⟩, ?_, rfl⟩
      rw [clone_heap, getElem?_modifyAt_self, hget]
      rfl
    · refine ⟨c, ?_, rfl⟩
      rw [clone_heap, getElem?_modifyAt_ne bump hcase, hget]
  · intro g c' hc'
    by_cases hcase : g.ptr = a
    · subst hcase
      rw [drop_cell g w c hget] at hc'
      by_cases hone : c.strong_count ≤ 1
      · rw [if_pos hone] at hc'
        exact absurd (Option.some.inj hc') (fun he => CellState.noConfusion he)
      · rw [if_neg hone] at hc'
        have := Option.some.inj hc'
        have hlive : c' = ⟨c.value, c.strong_count - 1⟩ := by
          cases this
          rfl
        rw [hlive]
    · rw [drop_heap, getElem?_modifyAt_ne dec hcase, hget] at hc'
      have := Option.some.inj hc'
      cases this
      rfl

theorem C3_value_never_mutated_witness :
    Gc.borrow (⟨0⟩ : Gc Nat) w1 = some 5 :=
  (C3_value_never_mutated w1 0 ⟨5, 1⟩ rfl).1

/-- C8: dropping one of two handles aliasing the same live cell does not
invalidate the other: after cloning `h1` to a second handle and dropping
`h1`, borrowing through the second handle still yields the original
value. -/
theorem C8_drop_one_alias_safe {T : Type} (w : World T) (h1 : Gc T)
    (hw : WF w) (hm : h1.ptr ∈ w.handles) :
    Gc.borrow (Gc.clone h1 w).1 (Gc.drop h1 (Gc.clone h1 w).2) = Gc.borrow h1 w ∧
    ∃ v, Gc.borrow h1 w = some v := by
  obtain ⟨c, hget, hcount, hpos⟩ := hw.live_of_mem hm
  have hclone : (Gc.clone h1 w).2.heap[h1.ptr]? =
      some (.live ⟨c.value, c.strong_count + 1⟩) := by
    rw [clone_heap, getElem?_modifyAt_self, hget]
    rfl
  have hdrop : (Gc.drop h1 (Gc.clone h1 w).2).heap[h1.ptr]? =
      some (.live ⟨c.value, c.strong_count⟩) := by
    rw [drop_heap, getElem?_modifyAt_self, hclone]
    simp only [Option.map_some', dec]
    rw [if_neg (by omega)]
    simp
  have hb2 : Gc.borrow (Gc.clone h1 w).1 (Gc.drop h1 (Gc.clone h1 w).2) =
      some c.value := borrow_eq hdrop
  have hb1 : Gc.borrow h1 w = some c.value := borrow_eq hget
  exact ⟨hb2.trans hb1.symm, c.value, hb1⟩

theorem C8_drop_one_alias_safe_witness :
    Gc.borrow (Gc.clone (⟨0⟩ : Gc Nat) w1).1 (Gc.drop ⟨0⟩ (Gc.clone ⟨0⟩ w1).2) =
      Gc.borrow ⟨0⟩ w1 ∧ ∃ v, Gc.borrow (⟨0⟩ : Gc Nat) w1 = some v :=
  C8_drop_one_alias_safe w1 ⟨0⟩ WF_w1 (by simp [w1])

end GcModel
